import Mathlib

/-!
Shallow embedding of `pool/pool.go` (package `pool`): a batching object pool
(`LockFreePool`) layered over two `sync.Pool` instances, one holding partially
filled batches (`emptyPool`, the "room to grow" cache) and one holding
non-empty batches (`fullPool`, the "ready to consume" cache).

Modelling choices:
* A Go slice `*[]interface{}` becomes `Batch α`: its element list plus its
  capacity (`cap` in Go).
* The impure factory `alloc func() interface{}` becomes a stream
  `alloc : Nat → α`: the i-th invocation (0-based) returns `alloc i`.  The
  pool state carries `allocCount`, the number of invocations so far, so that
  factory-call counts are observable.
* `sync.Pool` is an external dependency (not part of this repository).
  Modelled from the spec: a cache whose `Get` returns a previously stored
  value when one is held and otherwise invokes the supplied factory, and
  whose `Put` stores a value back.  In this single-threaded embedding each
  `sync.Pool` is a LIFO list of stored values.
-/

namespace GoPool

/-- A Go slice of pooled values: the stored elements plus the slice capacity. -/
structure Batch (α : Type) where
  data : List α
  cap : Nat
deriving Repr, DecidableEq

/-- The mutable state of a `LockFreePool`: the contents of the two `sync.Pool`
instances plus the number of factory invocations performed so far. -/
structure PoolState (α : Type) where
  emptyPool : List (Batch α)
  fullPool : List (Batch α)
  allocCount : Nat
deriving Repr, DecidableEq

/-- The immutable part of a `LockFreePool` value: the validated configuration
(`poolSizePerCPU` = K, `initFullPoolSize` = N, both Go `int`s) and the factory. -/
structure LockFreePool (α : Type) where
  poolSizePerCPU : Int
  initFullPoolSize : Int
  alloc : Nat → α

/-- `type Option = interface{}` together with the two recognized option types
`OptionPoolSizePerCPU int` and `OptionInitFullPoolSize int`; `otherOption`
stands for a value of any other dynamic type. -/
inductive PoolOpt where
  | optionPoolSizePerCPU (size : Int)
  | optionInitFullPoolSize (size : Int)
  | otherOption (tag : Nat)
deriving Repr, DecidableEq

/-- `const POOL_SIZE_PER_CPU = OptionPoolSizePerCPU(256)` -/
def POOL_SIZE_PER_CPU : Int := 256

/-- `const INIT_FULL_POOL_SIZE = OptionInitFullPoolSize(256)` -/
def INIT_FULL_POOL_SIZE : Int := 256

/-- `newEmptySlice`: `make([]interface{}, 0, poolSizePerCPU)`. -/
def newEmptySlice (K : Nat) : Batch α := ⟨[], K⟩

/-- `newFullSlice`: `make([]interface{}, initFullPoolSize, poolSizePerCPU)`
followed by the loop `for i := 0; i < initFullPoolSize; i++ { p[i] = alloc() }`.
`c` is the factory-invocation counter before the call; the i-th loop iteration
performs invocation number `c + i`.  Returns the batch and the new counter. -/
def newFullSlice (alloc : Nat → α) (K N c : Nat) : Batch α × Nat :=
  (⟨(List.range N).map fun i => alloc (c + i), K⟩, c + N)

/-- Go `append(*pool, x)`.  When `len < cap` the element is stored in place and
the capacity is unchanged; when `len = cap` Go reallocates with a larger,
implementation-defined capacity (modelled as doubling).  Under the pool
invariant the reallocating branch is never reached. -/
def sliceAppend (b : Batch α) (x : α) : Batch α :=
  if b.data.length < b.cap then ⟨b.data ++ [x], b.cap⟩
  else ⟨b.data ++ [x], max (2 * b.cap) (b.data.length + 1)⟩

/-- Modelled from the spec: `sync.Pool.Get` on a cache holding `stored`.
Returns a previously stored value when one is held, otherwise invokes the
factory `new` (threading the factory-invocation counter `c`). -/
def syncPoolGet (stored : List β) (new : Nat → β × Nat) (c : Nat) :
    β × List β × Nat :=
  match stored with
  | [] => ((new c).1, [], (new c).2)
  | b :: rest => (b, rest, c)

/-- Modelled from the spec: `sync.Pool.Put` stores a value back in the cache. -/
def syncPoolPut (stored : List β) (b : β) : List β :=
  b :: stored

/-- `func (p *LockFreePool) Get() interface{}`.  Fetches a batch from
`fullPool` (invoking `newFullSlice` when the cache is empty), reads
`pool[len(pool)-1]`, shrinks the batch by one, and returns the batch to
`fullPool` when the pre-removal length exceeds 1 and to `emptyPool` otherwise.
The `none` result models the index-out-of-range panic of `pool[len(pool)-1]`
on an empty batch. -/
def LockFreePool.Get (p : LockFreePool α) (st : PoolState α) :
    Option (α × PoolState α) :=
  let r := syncPoolGet st.fullPool
    (newFullSlice p.alloc p.poolSizePerCPU.toNat p.initFullPoolSize.toNat)
    st.allocCount
  match r.1.data.getLast? with
  | none => none
  | some e =>
    if r.1.data.length > 1 then
      some (e, ⟨st.emptyPool, syncPoolPut r.2.1 ⟨r.1.data.dropLast, r.1.cap⟩, r.2.2⟩)
    else
      some (e, ⟨syncPoolPut st.emptyPool ⟨r.1.data.dropLast, r.1.cap⟩, r.2.1, r.2.2⟩)

/-- `func (p *LockFreePool) Put(x interface{})`.  Fetches a batch from
`emptyPool` (invoking `newEmptySlice` when the cache is empty), appends `x`,
and returns the batch to `emptyPool` when `len(*pool) < cap(*pool)` and to
`fullPool` otherwise. -/
def LockFreePool.Put (p : LockFreePool α) (st : PoolState α) (x : α) :
    PoolState α :=
  let r := syncPoolGet st.emptyPool
    (fun c => ((newEmptySlice p.poolSizePerCPU.toNat : Batch α), c))
    st.allocCount
  let b := sliceAppend r.1 x
  if b.data.length < b.cap then
    ⟨syncPoolPut r.2.1 b, st.fullPool, r.2.2⟩
  else
    ⟨r.2.1, syncPoolPut st.fullPool b, r.2.2⟩

/-- The body of the option loop of `NewLockFreePool`: a type switch assigning
the recognized option kinds and ignoring everything else. -/
def applyOption (kn : Int × Int) (opt : PoolOpt) : Int × Int :=
  match opt with
  | .optionPoolSizePerCPU size => (size, kn.2)
  | .optionInitFullPoolSize size => (kn.1, size)
  | .otherOption _ => kn

/-- The option loop of `NewLockFreePool`: fold the options over the defaults. -/
def processOptions (options : List PoolOpt) : Int × Int :=
  options.foldl applyOption (POOL_SIZE_PER_CPU, INIT_FULL_POOL_SIZE)

/-- `func NewLockFreePool(alloc func() interface{}, options ...Option) LockFreePool`:
process the options, then validate
`if poolSizePerCPU < initFullPoolSize || initFullPoolSize <= 0` resetting both
to the defaults. -/
def NewLockFreePool (alloc : Nat → α) (options : List PoolOpt) :
    LockFreePool α :=
  let kn := processOptions options
  if kn.1 < kn.2 ∨ kn.2 ≤ 0 then
    ⟨POOL_SIZE_PER_CPU, INIT_FULL_POOL_SIZE, alloc⟩
  else
    ⟨kn.1, kn.2, alloc⟩

/-- The state of the two freshly constructed (empty) `sync.Pool` instances,
with no factory invocation performed yet. -/
def freshState (α : Type) : PoolState α := ⟨[], [], 0⟩

/-- Run a sequence of `Put` calls, one per list element, left to right. -/
def putList (p : LockFreePool α) (st : PoolState α) : List α → PoolState α
  | [] => st
  | x :: xs => putList p (p.Put st x) xs

/-- Run `n` consecutive `Get` calls, collecting the returned values in order;
`none` when any of them hits the out-of-range branch. -/
def getN (p : LockFreePool α) (st : PoolState α) : Nat → Option (List α × PoolState α)
  | 0 => some ([], st)
  | n + 1 =>
    match p.Get st with
    | none => none
    | some (e, st1) =>
      match getN p st1 n with
      | none => none
      | some (l, st2) => some (e :: l, st2)

/-- Split a list into `m` consecutive chunks of `K` elements each (the shape
`putList` leaves in the ready cache when the list length is `m * K`). -/
def chunksOf (K : Nat) : Nat → List α → List (List α)
  | 0, _ => []
  | m + 1, l => l.take K :: chunksOf K m (l.drop K)

end GoPool

namespace GoPool

/-! ### Single-step characterizations of `Get` and `Put` -/

/-- `Get` on a state whose ready cache holds a batch with data `d ++ [e]`:
returns `e`, shrinks the batch to `d`, and routes the batch by the
pre-removal length. -/
theorem Get_cons (p : LockFreePool α) (E F : List (Batch α)) (b : Batch α)
    (c : Nat) (d : List α) (e : α) (hd : b.data = d ++ [e]) :
    p.Get ⟨E, b :: F, c⟩ =
      if b.data.length > 1 then some (e, ⟨E, ⟨d, b.cap⟩ :: F, c⟩)
      else some (e, ⟨⟨d, b.cap⟩ :: E, F, c⟩) := by
  simp only [LockFreePool.Get, syncPoolGet, syncPoolPut, hd,
    List.getLast?_concat, List.dropLast_concat]

/-- `Get` on a state whose ready cache is empty: `newFullSlice` runs, the
factory is invoked `N` times, and the last freshly made value is returned. -/
theorem Get_nilFull (p : LockFreePool α) (E : List (Batch α)) (c : Nat)
    (hN : 1 ≤ p.initFullPoolSize.toNat) :
    p.Get ⟨E, [], c⟩ =
      if 1 < p.initFullPoolSize.toNat then
        some (p.alloc (c + (p.initFullPoolSize.toNat - 1)),
          ⟨E, [⟨(List.range (p.initFullPoolSize.toNat - 1)).map fun i => p.alloc (c + i),
            p.poolSizePerCPU.toNat⟩], c + p.initFullPoolSize.toNat⟩)
      else
        some (p.alloc (c + (p.initFullPoolSize.toNat - 1)),
          ⟨(⟨[], p.poolSizePerCPU.toNat⟩ : Batch α) :: E, [], c + p.initFullPoolSize.toNat⟩) := by
  obtain ⟨k, hk⟩ : ∃ k, p.initFullPoolSize.toNat = k + 1 :=
    ⟨p.initFullPoolSize.toNat - 1, by omega⟩
  simp only [LockFreePool.Get, syncPoolGet, syncPoolPut, newFullSlice, hk,
    List.range_succ, List.map_append, List.map_cons, List.map_nil,
    List.getLast?_concat, List.dropLast_concat, List.length_append,
    List.length_map, List.length_range, List.length_cons, List.length_nil,
    Nat.add_sub_cancel, Nat.zero_add, gt_iff_lt]
  rcases Nat.eq_zero_or_pos k with rfl | hk1
  · simp
  · have h1 : 1 < k + 1 := by omega
    rw [if_pos h1, if_pos h1]

/-- `Put` on a state whose growing cache holds a batch with spare capacity:
appends the value and routes the batch by the post-append length. -/
theorem Put_cons (p : LockFreePool α) (E F : List (Batch α)) (b : Batch α)
    (c : Nat) (x : α) (hlt : b.data.length < b.cap) :
    p.Put ⟨b :: E, F, c⟩ x =
      if b.data.length + 1 < b.cap then ⟨⟨b.data ++ [x], b.cap⟩ :: E, F, c⟩
      else ⟨E, ⟨b.data ++ [x], b.cap⟩ :: F, c⟩ := by
  simp only [LockFreePool.Put, syncPoolGet, syncPoolPut, sliceAppend,
    if_pos hlt, List.length_append, List.length_cons, List.length_nil]

/-- `Put` on a state whose growing cache is empty: `newEmptySlice` runs (no
factory invocation), the value is appended to the new batch. -/
theorem Put_nil (p : LockFreePool α) (F : List (Batch α)) (c : Nat) (x : α)
    (hK : 1 ≤ p.poolSizePerCPU.toNat) :
    p.Put ⟨[], F, c⟩ x =
      if 1 < p.poolSizePerCPU.toNat then
        ⟨[⟨[x], p.poolSizePerCPU.toNat⟩], F, c⟩
      else ⟨[], (⟨[x], p.poolSizePerCPU.toNat⟩ : Batch α) :: F, c⟩ := by
  simp only [LockFreePool.Put, syncPoolGet, syncPoolPut, sliceAppend,
    newEmptySlice, List.length_nil, List.nil_append, List.length_cons,
    if_pos (show 0 < p.poolSizePerCPU.toNat by omega)]

/-- Unfolding lemma for `NewLockFreePool` with the `let` reduced. -/
theorem NewLockFreePool_eq (alloc : Nat → α) (options : List PoolOpt) :
    NewLockFreePool alloc options =
      if (processOptions options).1 < (processOptions options).2 ∨
          (processOptions options).2 ≤ 0 then
        ⟨POOL_SIZE_PER_CPU, INIT_FULL_POOL_SIZE, alloc⟩
      else ⟨(processOptions options).1, (processOptions options).2, alloc⟩ := rfl

/-- `NewLockFreePool` always yields a validated configuration `0 < N ≤ K`. -/
theorem NewLockFreePool_validRange (alloc : Nat → α) (options : List PoolOpt) :
    0 < (NewLockFreePool alloc options).initFullPoolSize ∧
      (NewLockFreePool alloc options).initFullPoolSize ≤
        (NewLockFreePool alloc options).poolSizePerCPU := by
  rw [NewLockFreePool_eq]
  split
  · refine ⟨by norm_num [INIT_FULL_POOL_SIZE], ?_⟩
    norm_num [INIT_FULL_POOL_SIZE, POOL_SIZE_PER_CPU]
  · next h =>
    push_neg at h
    dsimp only
    exact ⟨by omega, by omega⟩

end GoPool
namespace GoPool

/-! ### Option processing (claims C6, C9) -/

/-- Follows the spec's words for C9: the value carried by an
`OptionPoolSizePerCPU` option, `none` for any other option type. -/
def specSizeOf : PoolOpt → Option Int
  | .optionPoolSizePerCPU size => some size
  | _ => none

/-- Follows the spec's words for C9: the value carried by an
`OptionInitFullPoolSize` option, `none` for any other option type. -/
def specInitOf : PoolOpt → Option Int
  | .optionInitFullPoolSize size => some size
  | _ => none

/-- The option fold starting from any pair computes, for each recognized
option type, the last occurrence (or the start value when absent). -/
theorem foldl_applyOption (options : List PoolOpt) :
    ∀ k n : Int, options.foldl applyOption (k, n) =
      ((options.filterMap specSizeOf).getLastD k,
        (options.filterMap specInitOf).getLastD n) := by
  induction options with
  | nil => intro k n; rfl
  | cons o rest ih =>
    intro k n
    cases o with
    | optionPoolSizePerCPU s =>
      simp only [List.foldl_cons, applyOption, ih, List.filterMap_cons,
        specSizeOf, specInitOf, List.getLastD_cons]
    | optionInitFullPoolSize s =>
      simp only [List.foldl_cons, applyOption, ih, List.filterMap_cons,
        specSizeOf, specInitOf, List.getLastD_cons]
    | otherOption t =>
      simp only [List.foldl_cons, applyOption, ih, List.filterMap_cons,
        specSizeOf, specInitOf]

/-- C9: `NewLockFreePool` processes its option list in order with
last-occurrence-wins semantics — the pre-validation configuration equals, in
each component, the value of the last option of that type (default when there
is none) — and options of any unrecognized type are silently ignored (they
contribute nothing to either `filterMap`). -/
theorem C9_options_last_wins (options : List PoolOpt) :
    processOptions options =
      ((options.filterMap specSizeOf).getLastD POOL_SIZE_PER_CPU,
        (options.filterMap specInitOf).getLastD INIT_FULL_POOL_SIZE) :=
  foldl_applyOption options POOL_SIZE_PER_CPU INIT_FULL_POOL_SIZE

/-- C6: construction never fails and silently resets an invalid configuration:
whenever the processed options violate `0 < N ≤ K` (the Go test
`poolSizePerCPU < initFullPoolSize || initFullPoolSize <= 0`), the constructed
pool equals the pool constructed with no options at all, and both `K` and `N`
are the defaults 256. -/
theorem C6_invalid_config_resets (alloc : Nat → α) (options : List PoolOpt)
    (h : (processOptions options).1 < (processOptions options).2 ∨
      (processOptions options).2 ≤ 0) :
    NewLockFreePool alloc options = NewLockFreePool alloc [] ∧
      (NewLockFreePool alloc options).poolSizePerCPU = 256 ∧
      (NewLockFreePool alloc options).initFullPoolSize = 256 := by
  have h2 : NewLockFreePool alloc options =
      ⟨POOL_SIZE_PER_CPU, INIT_FULL_POOL_SIZE, alloc⟩ := by
    rw [NewLockFreePool_eq, if_pos h]
  have h3 : NewLockFreePool alloc ([] : List PoolOpt) =
      ⟨POOL_SIZE_PER_CPU, INIT_FULL_POOL_SIZE, alloc⟩ := by
    rw [NewLockFreePool_eq]
    norm_num [processOptions, POOL_SIZE_PER_CPU, INIT_FULL_POOL_SIZE]
  rw [h2, h3]
  exact ⟨rfl, rfl, rfl⟩

/-- Witness for C6 at the spec's own example: `K=10, N=20` violates `N ≤ K`,
so the pool is identical to the default-configured one. -/
theorem C6_invalid_config_resets_witness :
    NewLockFreePool (fun i : Nat => i)
        [PoolOpt.optionPoolSizePerCPU 10, PoolOpt.optionInitFullPoolSize 20] =
      NewLockFreePool (fun i : Nat => i) [] :=
  (C6_invalid_config_resets (fun i : Nat => i)
    [PoolOpt.optionPoolSizePerCPU 10, PoolOpt.optionInitFullPoolSize 20]
    (by decide)).1

/-! ### Single-call contracts (claims C3, C4) -/

/-- C3: `Get` fetches the batch at the front of the ready cache, removes and
returns its last value; when the pre-removal length exceeds 1 the batch goes
back to the ready cache, and when the pre-removal length is exactly 1 (batch
now empty) it goes to the growing cache instead. -/
theorem C3_get_contract (p : LockFreePool α) (E F : List (Batch α))
    (b : Batch α) (c : Nat) (d : List α) (e : α) (hd : b.data = d ++ [e]) :
    (1 < b.data.length →
      p.Get ⟨E, b :: F, c⟩ = some (e, ⟨E, ⟨d, b.cap⟩ :: F, c⟩)) ∧
    (b.data.length = 1 →
      p.Get ⟨E, b :: F, c⟩ = some (e, ⟨⟨d, b.cap⟩ :: E, F, c⟩)) := by
  have h := Get_cons p E F b c d e hd
  constructor
  · intro hgt
    rw [h, if_pos hgt]
  · intro h1
    rw [h, if_neg (by omega)]

/-- Witness for C3: a ready batch `[1, 2]` of capacity 4 yields `2` and stays
in the ready cache as `[1]`. -/
theorem C3_get_contract_witness :
    (NewLockFreePool (fun i : Nat => i) []).Get ⟨[], [⟨[1, 2], 4⟩], 0⟩ =
      some (2, ⟨[], [⟨[1], 4⟩], 0⟩) :=
  (C3_get_contract (NewLockFreePool (fun i : Nat => i) []) [] [] ⟨[1, 2], 4⟩ 0
    [1] 2 rfl).1 (by decide)

/-- C4: `Put x` fetches the batch at the front of the growing cache and
appends `x`; when the new length is still below the capacity the batch goes
back to the growing cache, and when the new length equals the capacity it
moves to the ready cache. -/
theorem C4_put_contract (p : LockFreePool α) (E F : List (Batch α))
    (b : Batch α) (c : Nat) (x : α) (hlt : b.data.length < b.cap) :
    (b.data.length + 1 < b.cap →
      p.Put ⟨b :: E, F, c⟩ x = ⟨⟨b.data ++ [x], b.cap⟩ :: E, F, c⟩) ∧
    (b.data.length + 1 = b.cap →
      p.Put ⟨b :: E, F, c⟩ x = ⟨E, ⟨b.data ++ [x], b.cap⟩ :: F, c⟩) := by
  have h := Put_cons p E F b c x hlt
  constructor
  · intro hlt2
    rw [h, if_pos hlt2]
  · intro heq
    rw [h, if_neg (by omega)]

/-- Witness for C4: appending to a growing batch `[1]` of capacity 4 keeps it
in the growing cache as `[1, 9]`. -/
theorem C4_put_contract_witness :
    (NewLockFreePool (fun i : Nat => i) []).Put ⟨[⟨[1], 4⟩], [], 0⟩ 9 =
      ⟨[⟨[1, 9], 4⟩], [], 0⟩ :=
  (C4_put_contract (NewLockFreePool (fun i : Nat => i) []) [] [] ⟨[1], 4⟩ 0 9
    (by decide)).1 (by decide)

/-- C7: the spec's worked example with `K=4`, `N=2` and a factory returning
sequential integers starting at 1: the first `Get` pre-fills a ready batch
with `[1, 2]` and returns `2` leaving `[1]` in the ready cache; the second
`Get` returns `1` and moves the emptied batch to the growing cache; the third
`Get` pre-fills a new ready batch with `[3, 4]` and returns `4`. -/
theorem C7_example_trace :
    (NewLockFreePool (fun i => i + 1)
        [PoolOpt.optionPoolSizePerCPU 4, PoolOpt.optionInitFullPoolSize 2]).Get
        (freshState Nat) = some (2, ⟨[], [⟨[1], 4⟩], 2⟩) ∧
    (NewLockFreePool (fun i => i + 1)
        [PoolOpt.optionPoolSizePerCPU 4, PoolOpt.optionInitFullPoolSize 2]).Get
        ⟨[], [⟨[1], 4⟩], 2⟩ = some (1, ⟨[⟨[], 4⟩], [], 2⟩) ∧
    (NewLockFreePool (fun i => i + 1)
        [PoolOpt.optionPoolSizePerCPU 4, PoolOpt.optionInitFullPoolSize 2]).Get
        ⟨[⟨[], 4⟩], [], 2⟩ = some (4, ⟨[⟨[], 4⟩], [⟨[3], 4⟩], 4⟩) ∧
    getN (NewLockFreePool (fun i => i + 1)
        [PoolOpt.optionPoolSizePerCPU 4, PoolOpt.optionInitFullPoolSize 2])
        (freshState Nat) 3 =
      some ([2, 1, 4], ⟨[⟨[], 4⟩], [⟨[3], 4⟩], 4⟩) := by
  refine ⟨by decide, by decide, by decide, by decide⟩

end GoPool
namespace GoPool

/-! ### Reachable states and the residency invariant (claims C2, C5, C8, C10) -/

/-- The residency invariant of the two caches: every batch in the growing
(`emptyPool`) cache has capacity `K` and length strictly below capacity; every
batch in the ready (`fullPool`) cache has capacity `K`, length at least 1 and
length at most capacity. -/
structure PoolInv (p : LockFreePool α) (st : PoolState α) : Prop where
  emptyInv : ∀ b ∈ st.emptyPool,
    b.cap = p.poolSizePerCPU.toNat ∧ b.data.length < b.cap
  fullInv : ∀ b ∈ st.fullPool,
    b.cap = p.poolSizePerCPU.toNat ∧ 1 ≤ b.data.length ∧ b.data.length ≤ b.cap

/-- The states reachable from a freshly constructed pool by single-threaded
sequences of `Put` and (successful) `Get` calls. -/
inductive Reach (p : LockFreePool α) : PoolState α → Prop where
  | init : Reach p (freshState α)
  | put (st : PoolState α) (x : α) : Reach p st → Reach p (p.Put st x)
  | get (st st' : PoolState α) (e : α) :
      Reach p st → p.Get st = some (e, st') → Reach p st'

/-- A nonempty batch decomposes as its front plus its last element. -/
theorem batch_data_concat (b : Batch α) (hne : b.data.length ≠ 0) :
    ∃ d e, b.data = d ++ [e] := by
  rcases List.eq_nil_or_concat b.data with hnil | ⟨L, a, hcon⟩
  · exact absurd (by rw [hnil]; rfl) hne
  · exact ⟨L, a, by simpa [List.concat_eq_append] using hcon⟩

/-- `Put` preserves the residency invariant. -/
theorem Put_inv (p : LockFreePool α) (hK1 : 1 ≤ p.poolSizePerCPU.toNat)
    (st : PoolState α) (hinv : PoolInv p st) (x : α) :
    PoolInv p (p.Put st x) := by
  obtain ⟨E, F, c⟩ := st
  obtain ⟨hE, hF⟩ := hinv
  cases E with
  | nil =>
    rw [Put_nil p F c x hK1]
    split
    · next h1 =>
      refine ⟨?_, hF⟩
      intro b hb
      rw [List.mem_singleton] at hb
      subst hb
      exact ⟨rfl, by simpa using h1⟩
    · next h1 =>
      refine ⟨fun b hb => absurd hb (List.not_mem_nil b), ?_⟩
      intro b hb
      rcases List.mem_cons.mp hb with rfl | hb
      · exact ⟨rfl, by simp, by simp; omega⟩
      · exact hF b hb
  | cons b0 E' =>
    have hb0 := hE b0 (List.mem_cons_self b0 E')
    rw [Put_cons p E' F b0 c x hb0.2]
    split
    · next h1 =>
      refine ⟨?_, hF⟩
      intro b hb
      rcases List.mem_cons.mp hb with rfl | hb
      · exact ⟨hb0.1, by simpa using h1⟩
      · exact hE b (List.mem_cons_of_mem b0 hb)
    · next h1 =>
      refine ⟨fun b hb => hE b (List.mem_cons_of_mem b0 hb), ?_⟩
      intro b hb
      rcases List.mem_cons.mp hb with rfl | hb
      · refine ⟨hb0.1, by simp, ?_⟩
        have := hb0.2
        simp only [List.length_append, List.length_cons, List.length_nil]
        omega
      · exact hF b hb

/-- `Get` preserves the residency invariant. -/
theorem Get_inv (p : LockFreePool α) (hN1 : 1 ≤ p.initFullPoolSize.toNat)
    (hNK : p.initFullPoolSize.toNat ≤ p.poolSizePerCPU.toNat)
    (hK1 : 1 ≤ p.poolSizePerCPU.toNat) (st : PoolState α)
    (hinv : PoolInv p st) (e : α) (st' : PoolState α)
    (h : p.Get st = some (e, st')) : PoolInv p st' := by
  obtain ⟨E, F, c⟩ := st
  obtain ⟨hE, hF⟩ := hinv
  cases F with
  | nil =>
    rw [Get_nilFull p E c hN1] at h
    split at h
    · next h1 =>
      cases h
      refine ⟨hE, ?_⟩
      intro b hb
      rw [List.mem_singleton] at hb
      subst hb
      refine ⟨rfl, ?_, ?_⟩ <;>
        simp only [List.length_map, List.length_range] <;> omega
    · next h1 =>
      cases h
      refine ⟨?_, fun b hb => absurd hb (List.not_mem_nil b)⟩
      intro b hb
      rcases List.mem_cons.mp hb with rfl | hb
      · exact ⟨rfl, by simp only [List.length_nil]; omega⟩
      · exact hE b hb
  | cons b0 F' =>
    have hb0 := hF b0 (List.mem_cons_self b0 F')
    obtain ⟨d, e0, hd⟩ := batch_data_concat b0 (by omega)
    have hlen : b0.data.length = d.length + 1 := by
      rw [hd]; simp
    rw [Get_cons p E F' b0 c d e0 hd] at h
    split at h
    · next h1 =>
      cases h
      refine ⟨hE, ?_⟩
      intro b hb
      rcases List.mem_cons.mp hb with rfl | hb
      · refine ⟨hb0.1, by simp; omega, ?_⟩
        have := hb0.2.2
        simp only []
        omega
      · exact hF b (List.mem_cons_of_mem b0 hb)
    · next h1 =>
      cases h
      refine ⟨?_, fun b hb => hF b (List.mem_cons_of_mem b0 hb)⟩
      intro b hb
      rcases List.mem_cons.mp hb with rfl | hb
      · refine ⟨hb0.1, ?_⟩
        have := hb0.2.2
        simp only []
        omega
      · exact hE b hb

/-- Every reachable state of a validly configured pool satisfies the
residency invariant. -/
theorem reach_inv (p : LockFreePool α) (hN : 0 < p.initFullPoolSize)
    (hK : p.initFullPoolSize ≤ p.poolSizePerCPU) (st : PoolState α)
    (hr : Reach p st) : PoolInv p st := by
  have hN1 : 1 ≤ p.initFullPoolSize.toNat := by omega
  have hNK : p.initFullPoolSize.toNat ≤ p.poolSizePerCPU.toNat := by omega
  have hK1 : 1 ≤ p.poolSizePerCPU.toNat := by omega
  induction hr with
  | init =>
    exact ⟨fun b hb => absurd hb (List.not_mem_nil b),
      fun b hb => absurd hb (List.not_mem_nil b)⟩
  | put st x h ih => exact Put_inv p hK1 st ih x
  | get st st' e h hg ih => exact Get_inv p hN1 hNK hK1 st ih e st' hg

end GoPool
namespace GoPool

/-- C2: in every reachable state of a validly configured pool, every batch has
`0 ≤ length ≤ K` with capacity `K`; every batch in the growing cache has
`length < K` and every batch in the ready cache has `length ≥ 1` (the content
of `PoolInv`, preserved by every `Get` and `Put`); and both batch constructors
establish the residency invariants: `newEmptySlice` yields `length < K` and
`newFullSlice` yields `1 ≤ length = N ≤ K`. -/
theorem C2_capacity_invariant (p : LockFreePool α)
    (hN : 0 < p.initFullPoolSize) (hK : p.initFullPoolSize ≤ p.poolSizePerCPU)
    (st : PoolState α) (hr : Reach p st) :
    PoolInv p st ∧
      (newEmptySlice p.poolSizePerCPU.toNat : Batch α).data.length <
        p.poolSizePerCPU.toNat ∧
      (∀ c : Nat,
        1 ≤ (newFullSlice p.alloc p.poolSizePerCPU.toNat
              p.initFullPoolSize.toNat c).1.data.length ∧
          (newFullSlice p.alloc p.poolSizePerCPU.toNat
              p.initFullPoolSize.toNat c).1.data.length ≤
            p.poolSizePerCPU.toNat) := by
  refine ⟨reach_inv p hN hK st hr, ?_, ?_⟩
  · simp only [newEmptySlice, List.length_nil]
    omega
  · intro c
    simp only [newFullSlice, List.length_map, List.length_range]
    omega

/-- Witness for C2: the fresh state of a default-configured pool. -/
theorem C2_capacity_invariant_witness :
    PoolInv (NewLockFreePool (fun i : Nat => i) []) (freshState Nat) ∧
      (newEmptySlice
          (NewLockFreePool (fun i : Nat => i) []).poolSizePerCPU.toNat :
          Batch Nat).data.length <
        (NewLockFreePool (fun i : Nat => i) []).poolSizePerCPU.toNat ∧
      (∀ c : Nat,
        1 ≤ (newFullSlice (NewLockFreePool (fun i : Nat => i) []).alloc
              (NewLockFreePool (fun i : Nat => i) []).poolSizePerCPU.toNat
              (NewLockFreePool (fun i : Nat => i) []).initFullPoolSize.toNat
              c).1.data.length ∧
          (newFullSlice (NewLockFreePool (fun i : Nat => i) []).alloc
              (NewLockFreePool (fun i : Nat => i) []).poolSizePerCPU.toNat
              (NewLockFreePool (fun i : Nat => i) []).initFullPoolSize.toNat
              c).1.data.length ≤
            (NewLockFreePool (fun i : Nat => i) []).poolSizePerCPU.toNat) :=
  C2_capacity_invariant (NewLockFreePool (fun i : Nat => i) [])
    (by decide) (by decide) (freshState Nat) Reach.init

/-- C10: from every reachable state of a validly configured pool, `Get` never
hits the out-of-bounds branch (the embedded `pool[len(pool)-1]` access is
always in bounds, because a ready batch always holds at least one value and a
fresh ready batch is created with `N ≥ 1` values). -/
theorem C10_get_in_bounds (p : LockFreePool α)
    (hN : 0 < p.initFullPoolSize) (hK : p.initFullPoolSize ≤ p.poolSizePerCPU)
    (st : PoolState α) (hr : Reach p st) : p.Get st ≠ none := by
  have hinv := reach_inv p hN hK st hr
  obtain ⟨E, F, c⟩ := st
  obtain ⟨hE, hF⟩ := hinv
  cases F with
  | nil =>
    rw [Get_nilFull p E c (by omega)]
    split <;> simp
  | cons b0 F' =>
    have hb0 := hF b0 (List.mem_cons_self b0 F')
    obtain ⟨d, e0, hd⟩ := batch_data_concat b0 (by omega)
    rw [Get_cons p E F' b0 c d e0 hd]
    split <;> simp

/-- Witness for C10: `Get` on the fresh state of a default-configured pool. -/
theorem C10_get_in_bounds_witness :
    (NewLockFreePool (fun i : Nat => i) []).Get (freshState Nat) ≠ none :=
  C10_get_in_bounds (NewLockFreePool (fun i : Nat => i) [])
    (by decide) (by decide) (freshState Nat) Reach.init

/-- C8: from every reachable state of a validly configured pool, a batch
enters the ready cache (by `Put`) only with length exactly equal to its
capacity `K`, and a batch enters the growing cache (by `Get`) only with
length exactly 0. -/
theorem C8_boundary_transitions (p : LockFreePool α)
    (hN : 0 < p.initFullPoolSize) (hK : p.initFullPoolSize ≤ p.poolSizePerCPU)
    (st : PoolState α) (hr : Reach p st) :
    (∀ (x : α) (b : Batch α), b ∈ (p.Put st x).fullPool → b ∉ st.fullPool →
      b.data.length = b.cap ∧ b.cap = p.poolSizePerCPU.toNat) ∧
    (∀ (e : α) (st' : PoolState α) (b : Batch α), p.Get st = some (e, st') →
      b ∈ st'.emptyPool → b ∉ st.emptyPool →
      b.data.length = 0 ∧ b.cap = p.poolSizePerCPU.toNat) := by
  have hinv := reach_inv p hN hK st hr
  obtain ⟨E, F, c⟩ := st
  obtain ⟨hE, hF⟩ := hinv
  constructor
  · intro x b hb hnb
    cases E with
    | nil =>
      rw [Put_nil p F c x (by omega)] at hb
      split at hb
      · exact absurd hb hnb
      · next h1 =>
        rcases List.mem_cons.mp hb with rfl | hb2
        · exact ⟨by simp only [List.length_cons, List.length_nil]; omega, rfl⟩
        · exact absurd hb2 hnb
    | cons b0 E' =>
      have hb0 := hE b0 (List.mem_cons_self b0 E')
      rw [Put_cons p E' F b0 c x hb0.2] at hb
      split at hb
      · exact absurd hb hnb
      · next h1 =>
        rcases List.mem_cons.mp hb with rfl | hb2
        · refine ⟨?_, hb0.1⟩
          have := hb0.2
          simp only [List.length_append, List.length_cons, List.length_nil]
          omega
        · exact absurd hb2 hnb
  · intro e st' b hget hb hnb
    cases F with
    | nil =>
      rw [Get_nilFull p E c (by omega)] at hget
      split at hget
      · cases hget
        exact absurd hb hnb
      · next h1 =>
        cases hget
        rcases List.mem_cons.mp hb with rfl | hb2
        · exact ⟨rfl, rfl⟩
        · exact absurd hb2 hnb
    | cons b0 F' =>
      have hb0 := hF b0 (List.mem_cons_self b0 F')
      obtain ⟨d, e0, hd⟩ := batch_data_concat b0 (by omega)
      have hlen : b0.data.length = d.length + 1 := by rw [hd]; simp
      rw [Get_cons p E F' b0 c d e0 hd] at hget
      split at hget
      · cases hget
        exact absurd hb hnb
      · next h1 =>
        cases hget
        rcases List.mem_cons.mp hb with rfl | hb2
        · exact ⟨by simp only []; omega, hb0.1⟩
        · exact absurd hb2 hnb

/-- Witness for C8 with `K=1`: the first `Put` moves a batch of length 1 =
capacity into the ready cache. -/
theorem C8_boundary_transitions_witness :
    (Batch.mk [5] 1 : Batch Nat).data.length = (Batch.mk [5] 1 : Batch Nat).cap ∧
      (Batch.mk [5] 1 : Batch Nat).cap =
        (NewLockFreePool (fun i : Nat => i)
          [PoolOpt.optionPoolSizePerCPU 1,
            PoolOpt.optionInitFullPoolSize 1]).poolSizePerCPU.toNat :=
  (C8_boundary_transitions
    (NewLockFreePool (fun i : Nat => i)
      [PoolOpt.optionPoolSizePerCPU 1, PoolOpt.optionInitFullPoolSize 1])
    (by decide) (by decide) (freshState Nat) Reach.init).1 5 ⟨[5], 1⟩
    (by decide) (by decide)

/-- C5: the first `Get` on a freshly constructed, validly configured pool with
no prior `Put` performs exactly `N` factory invocations (not one, not `K`):
the new ready batch is built with exactly the `N` values of invocations
`0 … N-1`, and the call returns the last of them. -/
theorem C5_first_get_allocates_N (p : LockFreePool α)
    (hN : 0 < p.initFullPoolSize)
    (hK : p.initFullPoolSize ≤ p.poolSizePerCPU) :
    ∃ e st', p.Get (freshState α) = some (e, st') ∧
      st'.allocCount = p.initFullPoolSize.toNat ∧
      e = p.alloc (p.initFullPoolSize.toNat - 1) ∧
      (newFullSlice p.alloc p.poolSizePerCPU.toNat p.initFullPoolSize.toNat
          0).1.data = (List.range p.initFullPoolSize.toNat).map p.alloc ∧
      (newFullSlice p.alloc p.poolSizePerCPU.toNat p.initFullPoolSize.toNat
          0).1.data.length = p.initFullPoolSize.toNat := by
  have hN1 : 1 ≤ p.initFullPoolSize.toNat := by omega
  have hfresh : freshState α = ⟨[], [], 0⟩ := rfl
  have h := Get_nilFull p [] 0 hN1
  rw [← hfresh] at h
  by_cases h1 : 1 < p.initFullPoolSize.toNat
  · rw [if_pos h1] at h
    refine ⟨_, _, h, by simp, by simp, ?_, ?_⟩
    · simp [newFullSlice]
    · simp [newFullSlice]
  · rw [if_neg h1] at h
    refine ⟨_, _, h, by simp, by simp, ?_, ?_⟩
    · simp [newFullSlice]
    · simp [newFullSlice]

/-- Witness for C5 at `K=4, N=2`: the first `Get` performs 2 factory calls. -/
theorem C5_first_get_allocates_N_witness :
    ∃ e st',
      (NewLockFreePool (fun i : Nat => i + 1)
          [PoolOpt.optionPoolSizePerCPU 4,
            PoolOpt.optionInitFullPoolSize 2]).Get (freshState Nat) =
        some (e, st') ∧
      st'.allocCount =
        (NewLockFreePool (fun i : Nat => i + 1)
          [PoolOpt.optionPoolSizePerCPU 4,
            PoolOpt.optionInitFullPoolSize 2]).initFullPoolSize.toNat ∧
      e = (NewLockFreePool (fun i : Nat => i + 1)
          [PoolOpt.optionPoolSizePerCPU 4,
            PoolOpt.optionInitFullPoolSize 2]).alloc
        ((NewLockFreePool (fun i : Nat => i + 1)
          [PoolOpt.optionPoolSizePerCPU 4,
            PoolOpt.optionInitFullPoolSize 2]).initFullPoolSize.toNat - 1) ∧
      (newFullSlice
          (NewLockFreePool (fun i : Nat => i + 1)
            [PoolOpt.optionPoolSizePerCPU 4,
              PoolOpt.optionInitFullPoolSize 2]).alloc
          (NewLockFreePool (fun i : Nat => i + 1)
            [PoolOpt.optionPoolSizePerCPU 4,
              PoolOpt.optionInitFullPoolSize 2]).poolSizePerCPU.toNat
          (NewLockFreePool (fun i : Nat => i + 1)
            [PoolOpt.optionPoolSizePerCPU 4,
              PoolOpt.optionInitFullPoolSize 2]).initFullPoolSize.toNat
          0).1.data =
        (List.range
            (NewLockFreePool (fun i : Nat => i + 1)
              [PoolOpt.optionPoolSizePerCPU 4,
                PoolOpt.optionInitFullPoolSize 2]).initFullPoolSize.toNat).map
          (NewLockFreePool (fun i : Nat => i + 1)
            [PoolOpt.optionPoolSizePerCPU 4,
              PoolOpt.optionInitFullPoolSize 2]).alloc ∧
      (newFullSlice
          (NewLockFreePool (fun i : Nat => i + 1)
            [PoolOpt.optionPoolSizePerCPU 4,
              PoolOpt.optionInitFullPoolSize 2]).alloc
          (NewLockFreePool (fun i : Nat => i + 1)
            [PoolOpt.optionPoolSizePerCPU 4,
              PoolOpt.optionInitFullPoolSize 2]).poolSizePerCPU.toNat
          (NewLockFreePool (fun i : Nat => i + 1)
            [PoolOpt.optionPoolSizePerCPU 4,
              PoolOpt.optionInitFullPoolSize 2]).initFullPoolSize.toNat
          0).1.data.length =
        (NewLockFreePool (fun i : Nat => i + 1)
          [PoolOpt.optionPoolSizePerCPU 4,
            PoolOpt.optionInitFullPoolSize 2]).initFullPoolSize.toNat :=
  C5_first_get_allocates_N
    (NewLockFreePool (fun i : Nat => i + 1)
      [PoolOpt.optionPoolSizePerCPU 4, PoolOpt.optionInitFullPoolSize 2])
    (by decide) (by decide)

end GoPool
namespace GoPool

/-! ### Put/Get sequences from a fresh pool (claim C1) -/

/-- `Get_cons` specialized to a literal batch with its data split as
`d ++ [e]`, with the projections reduced. -/
theorem Get_cons2 (p : LockFreePool α) (E F : List (Batch α)) (k c : Nat)
    (d : List α) (e : α) :
    p.Get ⟨E, ⟨d ++ [e], k⟩ :: F, c⟩ =
      if d.length + 1 > 1 then some (e, ⟨E, ⟨d, k⟩ :: F, c⟩)
      else some (e, ⟨⟨d, k⟩ :: E, F, c⟩) := by
  rw [Get_cons p E F ⟨d ++ [e], k⟩ c d e rfl]
  simp

/-- `Put_cons` specialized to a literal batch, with the projections reduced. -/
theorem Put_cons2 (p : LockFreePool α) (E F : List (Batch α)) (k c : Nat)
    (dl : List α) (x : α) (hlt : dl.length < k) :
    p.Put ⟨⟨dl, k⟩ :: E, F, c⟩ x =
      if dl.length + 1 < k then ⟨⟨dl ++ [x], k⟩ :: E, F, c⟩
      else ⟨E, ⟨dl ++ [x], k⟩ :: F, c⟩ := by
  rw [Put_cons p E F ⟨dl, k⟩ c x hlt]

/-- Running `putList` distributes over list append. -/
theorem putList_append (p : LockFreePool α) :
    ∀ (l1 l2 : List α) (st : PoolState α),
      putList p st (l1 ++ l2) = putList p (putList p st l1) l2 := by
  intro l1
  induction l1 with
  | nil => intro l2 st; rfl
  | cons x l1' ih =>
    intro l2 st
    simp only [List.cons_append, putList]
    exact ih l2 (p.Put st x)

/-- Filling the rest of a partially filled growing batch: putting the final
`K - d.length` values appends them all and moves the full batch to the ready
cache. -/
theorem putList_fill (p : LockFreePool α) :
    ∀ (l d : List α) (F : List (Batch α)) (c : Nat), l ≠ [] →
      d.length + l.length = p.poolSizePerCPU.toNat →
      putList p ⟨[⟨d, p.poolSizePerCPU.toNat⟩], F, c⟩ l =
        ⟨[], ⟨d ++ l, p.poolSizePerCPU.toNat⟩ :: F, c⟩ := by
  intro l
  induction l with
  | nil => intro d F c hne; exact absurd rfl hne
  | cons x l' ih =>
    intro d F c hne hlen
    have hdlt : d.length < p.poolSizePerCPU.toNat := by
      simp only [List.length_cons] at hlen; omega
    simp only [putList]
    rw [Put_cons2 p [] F p.poolSizePerCPU.toNat c d x hdlt]
    cases l' with
    | nil =>
      have hlast : d.length + 1 = p.poolSizePerCPU.toNat := by
        simp only [List.length_cons, List.length_nil] at hlen; omega
      rw [if_neg (by omega)]
      simp only [putList]
    | cons y l'' =>
      have hlt2 : d.length + 1 < p.poolSizePerCPU.toNat := by
        simp only [List.length_cons] at hlen; omega
      rw [if_pos hlt2]
      rw [ih (d ++ [x]) F c (by simp)
        (by simp only [List.length_append, List.length_cons, List.length_nil] at hlen ⊢; omega)]
      simp

/-- Putting exactly `K` values onto a state with an empty growing cache
creates a batch, fills it, and moves it to the ready cache. -/
theorem putList_chunk (p : LockFreePool α) (hK1 : 1 ≤ p.poolSizePerCPU.toNat) :
    ∀ (l : List α) (F : List (Batch α)) (c : Nat),
      l.length = p.poolSizePerCPU.toNat →
      putList p ⟨[], F, c⟩ l = ⟨[], ⟨l, p.poolSizePerCPU.toNat⟩ :: F, c⟩ := by
  intro l F c hlen
  cases l with
  | nil => rw [List.length_nil] at hlen; omega
  | cons x l' =>
    simp only [putList]
    rw [Put_nil p F c x hK1]
    cases l' with
    | nil =>
      have hk : p.poolSizePerCPU.toNat = 1 := by
        simp only [List.length_cons, List.length_nil] at hlen; omega
      rw [if_neg (by omega)]
      simp only [putList]
    | cons y l'' =>
      have h2 : 1 < p.poolSizePerCPU.toNat := by
        simp only [List.length_cons] at hlen; omega
      rw [if_pos h2]
      rw [putList_fill p (y :: l'') [x] F c (by simp)
        (by simp only [List.length_cons, List.length_nil] at hlen ⊢; omega)]
      simp

/-- Putting `m * K` values onto a fresh-cache state stages them as `m` full
batches in the ready cache (most recent chunk first), with the growing cache
left empty and no factory invocation. -/
theorem putList_chunks (p : LockFreePool α)
    (hK1 : 1 ≤ p.poolSizePerCPU.toNat) :
    ∀ (m : Nat) (l : List α) (F : List (Batch α)) (c : Nat),
      l.length = m * p.poolSizePerCPU.toNat →
      putList p ⟨[], F, c⟩ l =
        ⟨[], ((chunksOf p.poolSizePerCPU.toNat m l).map
          fun d => (⟨d, p.poolSizePerCPU.toNat⟩ : Batch α)).reverse ++ F, c⟩ := by
  intro m
  induction m with
  | zero =>
    intro l F c hlen
    have hnil : l = [] := List.eq_nil_of_length_eq_zero (by omega)
    subst hnil
    simp [putList, chunksOf]
  | succ m ih =>
    intro l F c hlen
    have hKle : p.poolSizePerCPU.toNat ≤ l.length := by
      rw [hlen, Nat.succ_mul]; omega
    have htake : (l.take p.poolSizePerCPU.toNat).length =
        p.poolSizePerCPU.toNat := by
      rw [List.length_take]; omega
    have hdrop : (l.drop p.poolSizePerCPU.toNat).length =
        m * p.poolSizePerCPU.toNat := by
      rw [List.length_drop, hlen, Nat.succ_mul]; omega
    conv_lhs => rw [← List.take_append_drop p.poolSizePerCPU.toNat l]
    rw [putList_append, putList_chunk p hK1 _ F c htake, ih _ _ _ hdrop]
    simp only [chunksOf, List.map_cons, List.reverse_cons, List.append_assoc,
      List.singleton_append]

end GoPool
namespace GoPool

/-- Draining one ready batch: when the batch at the front of the ready cache
holds `r.reverse`, `r.length` consecutive `Get` calls return exactly `r` and
park the emptied batch in the growing cache. -/
theorem getN_drain (p : LockFreePool α) :
    ∀ (r : List α) (E F : List (Batch α)) (k c : Nat), r ≠ [] →
      getN p ⟨E, ⟨r.reverse, k⟩ :: F, c⟩ r.length =
        some (r, ⟨(⟨[], k⟩ : Batch α) :: E, F, c⟩) := by
  intro r
  induction r with
  | nil => intro E F k c hne; exact absurd rfl hne
  | cons e r' ih =>
    intro E F k c hne
    simp only [List.length_cons, getN, List.reverse_cons]
    rw [Get_cons2 p E F k c r'.reverse e]
    cases r' with
    | nil =>
      rw [if_neg (by simp)]
      simp [getN]
    | cons y r'' =>
      rw [if_pos (by simp)]
      have h2 := ih E F k c (by simp)
      simp only [List.reverse_cons, List.length_cons] at h2
      simp [h2]

/-- `getN` splits over a sum of counts. -/
theorem getN_add (p : LockFreePool α) :
    ∀ (a b : Nat) (st : PoolState α),
      getN p st (a + b) =
        (getN p st a).bind fun ls1 =>
          (getN p ls1.2 b).map fun ls2 => (ls1.1 ++ ls2.1, ls2.2) := by
  intro a
  induction a with
  | zero =>
    intro b st
    simp only [Nat.zero_add, getN, Option.some_bind]
    cases h : getN p st b with
    | none => rfl
    | some v => simp
  | succ a ih =>
    intro b st
    have hadd : a + 1 + b = (a + b) + 1 := by omega
    rw [hadd]
    simp only [getN]
    cases hg : p.Get st with
    | none => simp
    | some v =>
      obtain ⟨e, st1⟩ := v
      simp only [ih b st1]
      cases h1 : getN p st1 a with
      | none => simp
      | some v1 =>
        obtain ⟨l1, st2⟩ := v1
        cases h2 : getN p st2 b with
        | none => simp [h2]
        | some v2 => obtain ⟨l2, st3⟩ := v2; simp [h2]

/-- Draining a whole stack of ready batches, front to back: the values come
out chunk by chunk and every emptied batch is parked in the growing cache. -/
theorem getN_drainAll (p : LockFreePool α) :
    ∀ (ds : List (List α)) (E F : List (Batch α)) (k c : Nat),
      (∀ d ∈ ds, d ≠ []) →
      getN p ⟨E, (ds.map fun r => (⟨r.reverse, k⟩ : Batch α)) ++ F, c⟩
          ((ds.map List.length).sum) =
        some (ds.flatten,
          ⟨List.replicate ds.length (⟨[], k⟩ : Batch α) ++ E, F, c⟩) := by
  intro ds
  induction ds with
  | nil => intro E F k c h; simp [getN]
  | cons r ds' ih =>
    intro E F k c h
    simp only [List.map_cons, List.sum_cons, List.cons_append]
    rw [getN_add]
    rw [getN_drain p r E ((ds'.map fun r => (⟨r.reverse, k⟩ : Batch α)) ++ F)
      k c (h r (List.mem_cons_self r ds'))]
    simp only [Option.some_bind]
    rw [ih ((⟨[], k⟩ : Batch α) :: E) F k c
      (fun d hd => h d (List.mem_cons_of_mem r hd))]
    simp [List.replicate_succ', List.append_assoc]

/-- The chunks of a list of length `m * K` concatenate back to the list. -/
theorem chunksOf_flatten (K : Nat) :
    ∀ (m : Nat) (l : List α), l.length = m * K →
      (chunksOf K m l).flatten = l := by
  intro m
  induction m with
  | zero =>
    intro l h
    have hnil : l = [] := List.eq_nil_of_length_eq_zero (by omega)
    subst hnil
    rfl
  | succ m ih =>
    intro l h
    simp only [chunksOf, List.flatten_cons]
    rw [ih (l.drop K) (by rw [List.length_drop, h, Nat.succ_mul]; omega)]
    exact List.take_append_drop K l

/-- Every chunk of a list of length `m * K` has length exactly `K`. -/
theorem chunksOf_length_mem (K : Nat) :
    ∀ (m : Nat) (l : List α), l.length = m * K →
      ∀ d ∈ chunksOf K m l, d.length = K := by
  intro m
  induction m with
  | zero => intro l h d hd; exact absurd hd (List.not_mem_nil d)
  | succ m ih =>
    intro l h d hd
    rcases List.mem_cons.mp hd with rfl | hd2
    · rw [List.length_take]
      rw [h, Nat.succ_mul]
      omega
    · exact ih (l.drop K) (by rw [List.length_drop, h, Nat.succ_mul]; omega) d hd2

end GoPool
namespace GoPool

/-- C1 (amended): for every validly configured freshly constructed pool and
every sequence of `n = m * K` values, `Put v1 … Put vn` followed by `n` `Get`
calls returns exactly the multiset `{v1, …, vn}` (concretely: the values in
reverse order, a permutation of the puts) with zero factory invocations —
the multiple-of-`K` condition is exactly "`n` matches the number of values
staged into the ready cache", since only full batches move there. -/
theorem C1_put_get_roundtrip (p : LockFreePool α)
    (hN : 0 < p.initFullPoolSize) (hK : p.initFullPoolSize ≤ p.poolSizePerCPU)
    (m : Nat) (l : List α)
    (hl : l.length = m * p.poolSizePerCPU.toNat) :
    ∃ st' : PoolState α,
      getN p (putList p (freshState α) l) l.length = some (l.reverse, st') ∧
        l.reverse.Perm l ∧ st'.allocCount = 0 := by
  have hK1 : 1 ≤ p.poolSizePerCPU.toNat := by omega
  have hput := putList_chunks p hK1 m l [] 0 hl
  have hfresh : freshState α = ⟨[], [], 0⟩ := rfl
  rw [hfresh, hput]
  have hform : ((chunksOf p.poolSizePerCPU.toNat m l).map
      fun d => (⟨d, p.poolSizePerCPU.toNat⟩ : Batch α)).reverse =
      (((chunksOf p.poolSizePerCPU.toNat m l).reverse).map List.reverse).map
        fun r => (⟨r.reverse, p.poolSizePerCPU.toNat⟩ : Batch α) := by
    rw [List.map_map, ← List.map_reverse]
    simp [Function.comp]
  have hsum : ((((chunksOf p.poolSizePerCPU.toNat m l).reverse).map
      List.reverse).map List.length).sum = l.length := by
    simp only [List.map_map, Function.comp_def, List.length_reverse,
      List.map_reverse, List.sum_reverse]
    rw [← List.length_flatten, chunksOf_flatten p.poolSizePerCPU.toNat m l hl]
  have hne : ∀ r ∈ ((chunksOf p.poolSizePerCPU.toNat m l).reverse).map
      List.reverse, r ≠ [] := by
    intro r hr
    simp only [List.mem_map, List.mem_reverse] at hr
    obtain ⟨d, hd, rfl⟩ := hr
    have hdl := chunksOf_length_mem p.poolSizePerCPU.toNat m l hl d hd
    intro hcon
    rw [List.reverse_eq_nil_iff] at hcon
    subst hcon
    rw [List.length_nil] at hdl
    omega
  have hflat : ((((chunksOf p.poolSizePerCPU.toNat m l).reverse).map
      List.reverse)).flatten = l.reverse := by
    rw [List.map_reverse, ← List.reverse_flatten,
      chunksOf_flatten p.poolSizePerCPU.toNat m l hl]
  have hdrain := getN_drainAll p
    (((chunksOf p.poolSizePerCPU.toNat m l).reverse).map List.reverse)
    [] [] p.poolSizePerCPU.toNat 0 hne
  rw [hsum, hflat] at hdrain
  rw [hform]
  exact ⟨_, hdrain, List.reverse_perm l, rfl⟩

/-- Witness for C1 (amended) at `K=2, N=1`, `m=1`, puts `[5, 6]`: the two
gets return `[6, 5]` with no factory invocation. -/
theorem C1_put_get_roundtrip_witness :
    ∃ st' : PoolState Nat,
      getN (NewLockFreePool (fun i : Nat => 100 + i)
          [PoolOpt.optionPoolSizePerCPU 2, PoolOpt.optionInitFullPoolSize 1])
        (putList (NewLockFreePool (fun i : Nat => 100 + i)
          [PoolOpt.optionPoolSizePerCPU 2, PoolOpt.optionInitFullPoolSize 1])
          (freshState Nat) [5, 6]) ([5, 6] : List Nat).length =
        some (([5, 6] : List Nat).reverse, st') ∧
        (([5, 6] : List Nat).reverse).Perm [5, 6] ∧ st'.allocCount = 0 :=
  C1_put_get_roundtrip
    (NewLockFreePool (fun i : Nat => 100 + i)
      [PoolOpt.optionPoolSizePerCPU 2, PoolOpt.optionInitFullPoolSize 1])
    (by decide) (by decide) 1 [5, 6] (by decide)

/-- C1 as stated is false on the code: with a freshly constructed pool with
`K=4, N=2`, a single `Put 7` followed by a single `Get` returns the
factory-made value 101 (not 7) and performs two factory invocations (not
zero) — with fewer than `K` values staged, the put value sits in the growing
cache while `Get` pre-fills a brand-new ready batch from the factory. -/
theorem C1_counterexample :
    ¬ ∃ (ret : List Nat) (st' : PoolState Nat),
      getN (NewLockFreePool (fun i : Nat => 100 + i)
          [PoolOpt.optionPoolSizePerCPU 4, PoolOpt.optionInitFullPoolSize 2])
        (putList (NewLockFreePool (fun i : Nat => 100 + i)
          [PoolOpt.optionPoolSizePerCPU 4, PoolOpt.optionInitFullPoolSize 2])
          (freshState Nat) [7]) 1 = some (ret, st') ∧
        ret.Perm [7] ∧ st'.allocCount = 0 := by
  rintro ⟨ret, st', hval, hperm, hcount⟩
  have he : getN (NewLockFreePool (fun i : Nat => 100 + i)
      [PoolOpt.optionPoolSizePerCPU 4, PoolOpt.optionInitFullPoolSize 2])
      (putList (NewLockFreePool (fun i : Nat => 100 + i)
        [PoolOpt.optionPoolSizePerCPU 4, PoolOpt.optionInitFullPoolSize 2])
        (freshState Nat) [7]) 1 =
      some ([101], ⟨[⟨[7], 4⟩], [⟨[100], 4⟩], 2⟩) := by decide
  rw [he] at hval
  rw [Option.some.injEq, Prod.mk.injEq] at hval
  obtain ⟨hret, hst⟩ := hval
  subst hret
  subst hst
  exact absurd hcount (by decide)

end GoPool
